import Mathlib

/-!
A shallow embedding of `src/knobwrangler.py`: knob ("field") management on a
nuke node.  Knob identities are modelled as natural numbers; the mutable
`name` attribute of each knob lives in a global name map, and a node is an
ordered list of knob identities together with its class string.  The host
primitives `removeKnob` (remove by identity) and `addKnob` (append at end)
are recorded in a call trace so that theorems can speak about the exact
sequence of host mutations an operation performs.
-/

namespace KnobWrangler

/-- Numeric value of a digit character (partial inverse of `digitChar`). -/
def digitVal (c : Char) : Nat := c.toNat - 48

/-- `int(...)` on a string of decimal digits: fold them left to right. -/
def parseDigits (ds : List Char) : Nat :=
  ds.foldl (fun a c => 10 * a + digitVal c) 0

/-- The character for a digit `n < 10`. -/
def digitChar (n : Nat) : Char := Char.ofNat (48 + n)

/-- Decimal representation, fuel-based so that it reduces structurally;
`natRepr` below supplies sufficient fuel. -/
def natReprAux : Nat → Nat → List Char
  | 0, _ => []
  | fuel + 1, n =>
    if n < 10 then [digitChar n]
    else natReprAux fuel (n / 10) ++ [digitChar (n % 10)]

/-- Decimal representation of a natural number, as Python's `"{}".format`
produces it (no leading zeros, most significant digit first). -/
def natRepr (n : Nat) : List Char := natReprAux (n + 1) n

/-- `dropStart p x` returns `some r` when `x = p ++ r`, else `none`. -/
def dropStart : List Char → List Char → Option (List Char)
  | [], x => some x
  | _ :: _, [] => none
  | p :: ps, c :: cs => if c = p then dropStart ps cs else none

/-- The regex match of `_name_mangler`: `x` matches `^<target>_([0-9]+)$`
(for a target without regex metacharacters) exactly when `x` is `target`,
an underscore, then one or more digits; the captured group is parsed as an
integer.  Returns that integer when the match succeeds. -/
def matchSuffixNum (target x : List Char) : Option Nat :=
  match dropStart (target ++ ['_']) x with
  | none => none
  | some ds => if ds ≠ [] ∧ ds.all Char.isDigit then some (parseDigits ds) else none

/-- The `for wanted, used in zip(range(1, len+1), indexes)` loop of
`_name_mangler`: walk the sorted suffix list with a counter starting at
`w`; stop at the first position where counter and entry disagree, and fall
off the end with the final counter value (Python's `for/else` sets
`wanted = len(indexes)+1` there). -/
def firstMismatch : Nat → List Nat → Nat
  | w, [] => w
  | w, u :: rest => if w = u then firstMismatch (w + 1) rest else w

/-- `_name_mangler(target_name, pool_of_names)`: collect the names of the
pool matching `^<target>_([0-9]+)$`, extract and sort their integer
suffixes, and pick the first counter value not matched while walking the
sorted list (source lines 114-133). -/
def _name_mangler (target : String) (pool : List String) : String :=
  let indexes := pool.filterMap (fun x => matchSuffixNum target.data x.data)
  let wanted := firstMismatch 1 (List.insertionSort (· ≤ ·) indexes)
  ⟨target.data ++ '_' :: natRepr wanted⟩

/-- The world: a global name map over knob identities, plus the node's
full ordered knob list and its class string. -/
structure World where
  names : Nat → String
  node : List Nat
  cls : String

/-- A host mutation primitive call, as issued by `insert`. -/
inductive HostCall where
  | removeKnob (k : Nat)
  | addKnob (k : Nat)
  deriving DecidableEq, Repr

/-- The exceptions the module raises. -/
inductive KWErr where
  /-- `ValueError` from `all_user_knobs` when the boundary knob is absent. -/
  | malformedNode
  /-- `ValueError` "Duplicate knobs to add" (source line 242). -/
  | duplicateInput
  /-- `ValueError` "Insertion point specified is not a userknob" (line 253). -/
  | pointNameNotFound
  /-- `IndexError` from `_calculate_insertion_point` (source line 68). -/
  | pointNotInList
  deriving DecidableEq, Repr

/-- `lastknob_class_map.get(the_node.Class(), 'useLifetime')` (lines 159-166). -/
def lastknob_class_map (cls : String) : String :=
  if cls = "Group" then "window"
  else if cls = "StickyNote" then "bookmark"
  else if cls = "NoOp" then "hide_input"
  else if cls = "Dot" then "hide_input"
  else "useLifetime"

/-- `the_node.knobs().keys()`: the set of names of all knobs on the node
(a Python dict key view, hence duplicate-free). -/
def nodeNames (w : World) : List String := (w.node.map w.names).dedup

/-- `all_user_knobs(the_node)` (source lines 148-169): the knobs after the
first knob carrying the class-specific boundary name.  A missing boundary
knob makes `knobs.index(None)` raise, modelled as `malformedNode`. -/
def all_user_knobs (w : World) : Except KWErr (List Nat) :=
  match w.node.findIdx? (fun k => w.names k == lastknob_class_map w.cls) with
  | none => .error .malformedNode
  | some i => .ok (w.node.drop (i + 1))

/-- `_user_knob_by_name(the_node, knobname)` (lines 93-111): first user
knob with the given name, `none` when absent. -/
def _user_knob_by_name (w : World) (nm : String) : Except KWErr (Option Nat) :=
  match all_user_knobs w with
  | .error e => .error e
  | .ok uks => .ok (uks.find? (fun k => w.names k == nm))

/-- `_calculate_insertion_point(existing_knob_list, knob_point,
insert_before)` (source lines 38-80). -/
def _calculate_insertion_point (lst : List Nat) (kp : Option Nat)
    (before : Bool) : Except KWErr Nat :=
  match kp with
  | none => .ok (if before then 0 else lst.length)
  | some k =>
    match lst.findIdx? (fun x => x == k) with
    | none => .error .pointNotInList
    | some i => .ok (if before then i else i + 1)

/-- The name-collision loop of `insert` (source lines 273-280): walk the
new knobs in order; a knob whose name is free merely registers it, a knob
whose name is taken is renamed in place to the mangled name, which is then
registered.  Returns the updated name map and exhausted-name set. -/
def mangleLoop (names : Nat → String) (exhausted : List String) :
    List Nat → (Nat → String) × List String
  | [] => (names, exhausted)
  | k :: rest =>
    if names k ∈ exhausted then
      let nn := _name_mangler (names k) exhausted
      mangleLoop (fun j => if j = k then nn else names j) (exhausted.insert nn) rest
    else
      mangleLoop names (exhausted.insert (names k)) rest

/-- The divergence-scan loop of `insert` (source lines 290-293):
`index = 0; for index, knob in enumerate(pre): if knob != prop[index]:
break`.  The counter is the enumerate index; falling off the end leaves
the final loop value, i.e. `len(pre) - 1` (and `0` for an empty list). -/
def diffIndexAux : Nat → List Nat → List Nat → Nat
  | i, [], _ => i - 1
  | i, _ :: _, [] => i
  | i, a :: as, b :: bs => if a = b then diffIndexAux (i + 1) as bs else i

/-- The value the Python name `index` holds after the divergence scan.
(The middle `diffIndexAux` case, proposed list exhausted first, is
unreachable from `insert`, whose proposed list extends the old one.) -/
def diffIndex (old prop : List Nat) : Nat := diffIndexAux 0 old prop

/-- Result of one `insert` call: the final world, the trace of host
primitive calls issued, and the returned knob list or the raised error. -/
structure InsertResult where
  world : World
  calls : List HostCall
  out : Except KWErr (List Nat)

/-- Resolution of the `knob_point` argument (source lines 244-258): a
string is looked up among user knobs and a miss raises; a knob reference
is taken as-is; `None` stays `None`. -/
def resolveKnobPoint (w : World) :
    Option (String ⊕ Nat) → Except KWErr (Option Nat)
  | none => .ok none
  | some (.inl nm) =>
    match _user_knob_by_name w nm with
    | .error e => .error e
    | .ok none => .error .pointNameNotFound
    | .ok (some k) => .ok (some k)
  | some (.inr k) => .ok (some k)

/-- The name map after the collision loop (`knob.setName` mutations of
source lines 278-279 folded over the batch). -/
def mangledNames (w : World) (new : List Nat) : Nat → String :=
  (mangleLoop w.names (nodeNames w) new).1

/-- `proposed_list` (source lines 269 and 282): the pre-change user list
with the batch spliced in at the insertion point. -/
def proposedOf (pre new : List Nat) (ip : Nat) : List Nat :=
  pre.take ip ++ new ++ pre.drop ip

/-- The knobs removed by the reconciliation loop of source line 295:
`pre_change_knobs[index:]`, in list order (forward). -/
def removesOf (pre prop : List Nat) : List Nat := pre.drop (diffIndex pre prop)

/-- The knobs appended by the loop of source line 298:
`proposed_list[index:]`, in list order (forward). -/
def appendsOf (pre prop : List Nat) : List Nat := prop.drop (diffIndex pre prop)

/-- The node's knob list after the two host-mutation loops: each
`removeKnob` erases the (first) occurrence of its knob, each `addKnob`
appends at the end. -/
def nodeAfter (node removes appends : List Nat) : List Nat :=
  (removes.foldl (fun n x => n.erase x) node) ++ appends

/-- The mutation phase of `insert` (source lines 269-305), after all
validation and resolution succeeded: mangle the batch names, build the
proposed list, run the divergence scan, issue the removals then the
appends, and compute the returned new-user-knob list. -/
def insertApply (w : World) (new pre : List Nat) (ip : Nat) : InsertResult :=
  let proposed := proposedOf pre new ip
  let removes := removesOf pre proposed
  let appends := appendsOf pre proposed
  let w3 : World := ⟨mangledNames w new, nodeAfter w.node removes appends, w.cls⟩
  let calls := removes.map HostCall.removeKnob ++ appends.map HostCall.addKnob
  match all_user_knobs w3 with
  | .error e => ⟨w3, calls, .error e⟩
  | .ok post => ⟨w3, calls, .ok (post.filter (fun x => x ∉ pre))⟩

/-- `insert(new_knobs, the_node, knob_point, insert_before)` (source lines
215-305): duplicate check, knob-point resolution, insertion-point
computation, then the mutation phase `insertApply`. -/
def insert (new_knobs : List Nat) (w : World) (knob_point : Option (String ⊕ Nat))
    (insert_before : Bool) : InsertResult :=
  if ¬ new_knobs.Nodup then ⟨w, [], .error .duplicateInput⟩
  else
    match resolveKnobPoint w knob_point with
    | .error e => ⟨w, [], .error e⟩
    | .ok kp =>
      match all_user_knobs w with
      | .error e => ⟨w, [], .error e⟩
      | .ok pre =>
        match _calculate_insertion_point pre kp insert_before with
        | .error e => ⟨w, [], .error e⟩
        | .ok ip => insertApply w new_knobs pre ip

/-- `mangle_knob_name(knob, the_node, rename)` (source lines 186-212). -/
def mangle_knob_name (k : Nat) (w : World) (rename : Bool) : String × World :=
  if k ∈ w.node then (w.names k, w)
  else if w.names k ∉ w.node.map w.names then (w.names k, w)
  else
    let nn := _name_mangler (w.names k) (nodeNames w)
    (nn, if rename then ⟨fun j => if j = k then nn else w.names j, w.node, w.cls⟩ else w)

/-! ### Digit and decimal-representation lemmas -/

lemma digitVal_digitChar {n : Nat} (h : n < 10) : digitVal (digitChar n) = n := by
  interval_cases n <;> decide

lemma isDigit_digitChar {n : Nat} (h : n < 10) : (digitChar n).isDigit = true := by
  interval_cases n <;> decide

lemma parseDigits_append_last (xs : List Char) (c : Char) :
    parseDigits (xs ++ [c]) = 10 * parseDigits xs + digitVal c := by
  simp [parseDigits, List.foldl_append]

lemma natReprAux_spec : ∀ fuel n, n < fuel →
    natReprAux fuel n ≠ [] ∧ (∀ c ∈ natReprAux fuel n, c.isDigit = true) ∧
      parseDigits (natReprAux fuel n) = n := by
  intro fuel
  induction fuel with
  | zero => intro n h; omega
  | succ f ih =>
    intro n h
    by_cases h10 : n < 10
    · refine ⟨by simp [natReprAux, h10], ?_, ?_⟩
      · intro c hc
        simp only [natReprAux, if_pos h10, List.mem_singleton] at hc
        exact hc ▸ isDigit_digitChar h10
      · simp [natReprAux, h10, parseDigits, digitVal_digitChar h10]
    · have hdiv : n / 10 < f := by
        have : n / 10 < n := Nat.div_lt_self (by omega) (by omega)
        omega
      obtain ⟨h1, h2, h3⟩ := ih (n / 10) hdiv
      simp only [natReprAux, if_neg h10]
      refine ⟨by simp, ?_, ?_⟩
      · intro c hc
        rcases List.mem_append.mp hc with hc | hc
        · exact h2 c hc
        · rw [List.mem_singleton.mp hc]
          exact isDigit_digitChar (Nat.mod_lt _ (by omega))
      · rw [parseDigits_append_last, h3, digitVal_digitChar (Nat.mod_lt _ (by omega))]
        omega

lemma natRepr_ne_nil (n : Nat) : natRepr n ≠ [] :=
  (natReprAux_spec _ n (Nat.lt_succ_self n)).1

lemma natRepr_digits (n : Nat) : ∀ c ∈ natRepr n, c.isDigit = true :=
  (natReprAux_spec _ n (Nat.lt_succ_self n)).2.1

lemma parseDigits_natRepr (n : Nat) : parseDigits (natRepr n) = n :=
  (natReprAux_spec _ n (Nat.lt_succ_self n)).2.2

/-! ### Pattern-match lemmas -/

lemma dropStart_append : ∀ (p r : List Char), dropStart p (p ++ r) = some r
  | [], _ => rfl
  | c :: p, r => by simp [dropStart, dropStart_append p r]

lemma dropStart_eq_some : ∀ {p x r : List Char}, dropStart p x = some r → x = p ++ r := by
  intro p
  induction p with
  | nil =>
    intro x r h
    simpa [dropStart] using h
  | cons c p ih =>
    intro x r h
    cases x with
    | nil => simp [dropStart] at h
    | cons d x =>
      simp only [dropStart] at h
      split at h
      · next heq => rw [heq, List.cons_append, ih h]
      · exact absurd h (by simp)

lemma matchSuffixNum_mk (t : List Char) (n : Nat) :
    matchSuffixNum t (t ++ '_' :: natRepr n) = some n := by
  have he : t ++ '_' :: natRepr n = (t ++ ['_']) ++ natRepr n := by simp
  rw [matchSuffixNum, he, dropStart_append]
  have hcond : natRepr n ≠ [] ∧ (natRepr n).all Char.isDigit := by
    refine ⟨natRepr_ne_nil n, ?_⟩
    rw [List.all_eq_true]
    exact natRepr_digits n
  show (if natRepr n ≠ [] ∧ (natRepr n).all Char.isDigit then
      some (parseDigits (natRepr n)) else none) = some n
  rw [if_pos hcond, parseDigits_natRepr]

lemma matchSuffixNum_some {t x : List Char} {n : Nat}
    (h : matchSuffixNum t x = some n) :
    ∃ ds, x = t ++ '_' :: ds ∧ ds ≠ [] ∧ (∀ c ∈ ds, c.isDigit = true) ∧
      parseDigits ds = n := by
  unfold matchSuffixNum at h
  split at h
  · exact absurd h (by simp)
  · next ds hds =>
    split at h
    · next hcond =>
      refine ⟨ds, ?_, hcond.1, List.all_eq_true.mp hcond.2, by simpa using h⟩
      rw [dropStart_eq_some hds]
      simp
    · exact absurd h (by simp)

/-! ### The gap-finding loop -/

lemma firstMismatch_spec : ∀ (l : List Nat) (w : Nat),
    l.Sorted (· ≤ ·) → l.Nodup → (∀ x ∈ l, w ≤ x) →
    (w ≤ firstMismatch w l ∧ firstMismatch w l ∉ l) ∧
      ∀ j, w ≤ j → j < firstMismatch w l → j ∈ l := by
  intro l
  induction l with
  | nil =>
    intro w _ _ _
    refine ⟨⟨le_refl w, by simp⟩, ?_⟩
    intro j hj hlt
    rw [firstMismatch] at hlt
    omega
  | cons u rest ih =>
    intro w hs hnd hge
    by_cases hw : w = u
    · subst hw
      have hs' : rest.Sorted (· ≤ ·) := hs.of_cons
      have hnd' : rest.Nodup := hnd.of_cons
      have hge' : ∀ x ∈ rest, w + 1 ≤ x := by
        intro x hx
        have h1 : w ≤ x := (List.sorted_cons.mp hs).1 x hx
        have h2 : x ≠ w := fun he => (List.nodup_cons.mp hnd).1 (he ▸ hx)
        omega
      obtain ⟨⟨ha, hb⟩, hc⟩ := ih (w + 1) hs' hnd' hge'
      rw [firstMismatch, if_pos rfl]
      refine ⟨⟨by omega, ?_⟩, ?_⟩
      · intro hmem
        rcases List.mem_cons.mp hmem with he | hm
        · omega
        · exact hb hm
      · intro j hj hlt
        by_cases hjw : j = w
        · exact hjw ▸ List.mem_cons_self _ _
        · exact List.mem_cons_of_mem _ (hc j (by omega) hlt)
    · rw [firstMismatch, if_neg hw]
      refine ⟨⟨le_refl w, ?_⟩, ?_⟩
      · intro hmem
        rcases List.mem_cons.mp hmem with he | hm
        · exact hw he
        · have h1 : u ≤ w := (List.sorted_cons.mp hs).1 w hm
          have h2 : w ≤ u := hge u (List.mem_cons_self _ _)
          omega
      · intro j hj hlt
        omega

/-! ### Core behaviour of the name mangler -/

lemma mangler_core (t : String) (pool : List String)
    (hnd : (pool.filterMap (fun x => matchSuffixNum t.data x.data)).Nodup)
    (hpos : ∀ n ∈ pool.filterMap (fun x => matchSuffixNum t.data x.data), 1 ≤ n) :
    ∃ m, _name_mangler t pool = ⟨t.data ++ '_' :: natRepr m⟩ ∧ 1 ≤ m ∧
      m ∉ pool.filterMap (fun x => matchSuffixNum t.data x.data) ∧
      ∀ j, 1 ≤ j → j < m →
        j ∈ pool.filterMap (fun x => matchSuffixNum t.data x.data) := by
  set indexes := pool.filterMap (fun x => matchSuffixNum t.data x.data) with hidx
  set sl := List.insertionSort (· ≤ ·) indexes with hsl
  have hperm : sl.Perm indexes := List.perm_insertionSort _ _
  have hsorted : sl.Sorted (· ≤ ·) := List.sorted_insertionSort _ _
  have hslnd : sl.Nodup := hperm.nodup_iff.mpr hnd
  have hslpos : ∀ x ∈ sl, 1 ≤ x := fun x hx => hpos x (hperm.mem_iff.mp hx)
  obtain ⟨⟨h1, h2⟩, h3⟩ := firstMismatch_spec sl 1 hsorted hslnd hslpos
  refine ⟨firstMismatch 1 sl, rfl, h1, ?_, ?_⟩
  · intro hmem
    exact h2 (hperm.mem_iff.mpr hmem)
  · intro j hj hlt
    exact hperm.mem_iff.mp (h3 j hj hlt)

lemma nodup_filterMap_of_inj_on {α β : Type} (f : α → Option β) :
    ∀ l : List α, l.Nodup →
      (∀ a ∈ l, ∀ b ∈ l, ∀ c, f a = some c → f b = some c → a = b) →
      (l.filterMap f).Nodup := by
  intro l
  induction l with
  | nil => intro _ _; simp
  | cons a l ih =>
    intro hnd hinj
    have htail := ih (List.nodup_cons.mp hnd).2 fun x hx y hy c h1 h2 =>
      hinj x (List.mem_cons_of_mem _ hx) y (List.mem_cons_of_mem _ hy) c h1 h2
    rw [List.filterMap_cons]
    cases hfa : f a with
    | none => exact htail
    | some c =>
      rw [List.nodup_cons]
      refine ⟨?_, htail⟩
      intro hc
      obtain ⟨b, hb, hfb⟩ := List.mem_filterMap.mp hc
      have hab := hinj a (List.mem_cons_self _ _) b (List.mem_cons_of_mem _ hb) c hfa hfb
      exact (List.nodup_cons.mp hnd).1 (hab ▸ hb)

/-- C3 (amended): the mangler is deterministic — pools equal as sets
(permutations of one another) give the same result — and the returned name
avoids the pool whenever the integer suffixes extracted from the pool for
the target are pairwise distinct and positive.  (Unconditionally the second
part is false: see the counterexample, where a `T_0` entry misaligns the
gap scan.) -/
theorem mangler_det_and_no_collision :
    (∀ (t : String) (p1 p2 : List String), p1.Perm p2 →
      _name_mangler t p1 = _name_mangler t p2) ∧
    (∀ (t : String) (pool : List String),
      (pool.filterMap (fun x => matchSuffixNum t.data x.data)).Nodup →
      (∀ n ∈ pool.filterMap (fun x => matchSuffixNum t.data x.data), 1 ≤ n) →
      _name_mangler t pool ∉ pool) := by
  constructor
  · intro t p1 p2 hp
    unfold _name_mangler
    have hpf : (p1.filterMap (fun x => matchSuffixNum t.data x.data)).Perm
        (p2.filterMap (fun x => matchSuffixNum t.data x.data)) := hp.filterMap _
    have hsorts :
        List.insertionSort (· ≤ ·) (p1.filterMap (fun x => matchSuffixNum t.data x.data)) =
          List.insertionSort (· ≤ ·) (p2.filterMap (fun x => matchSuffixNum t.data x.data)) :=
      List.eq_of_perm_of_sorted
        ((List.perm_insertionSort _ _).trans (hpf.trans (List.perm_insertionSort _ _).symm))
        (List.sorted_insertionSort _ _) (List.sorted_insertionSort _ _)
    show (⟨t.data ++ '_' :: natRepr (firstMismatch 1 (List.insertionSort (· ≤ ·)
        (p1.filterMap (fun x => matchSuffixNum t.data x.data))))⟩ : String) =
      ⟨t.data ++ '_' :: natRepr (firstMismatch 1 (List.insertionSort (· ≤ ·)
        (p2.filterMap (fun x => matchSuffixNum t.data x.data))))⟩
    rw [hsorts]
  · intro t pool hnd hpos hmem
    obtain ⟨m, hres, _, hnotin, _⟩ := mangler_core t pool hnd hpos
    rw [hres] at hmem
    exact hnotin (List.mem_filterMap.mpr ⟨_, hmem, matchSuffixNum_mk t.data m⟩)

/-- Witness for `mangler_det_and_no_collision` at a concrete input. -/
theorem mangler_det_and_no_collision_witness :
    _name_mangler "T" ["T_1", "a"] ∉ (["T_1", "a"] : List String) :=
  mangler_det_and_no_collision.2 "T" ["T_1", "a"] (by decide) (by decide)

/-- Counterexample to C3 as stated: over the in-use set `{T_0, T_1}` the
mangler returns `T_1`, which is a member of the set (the `T_0` entry
shifts the gap scan, which assumes suffixes start at 1). -/
theorem mangler_collision_counterexample :
    _name_mangler "T" ["T_0", "T_1"] = "T_1" ∧
      ("T_1" : String) ∈ (["T_0", "T_1"] : List String) := by
  exact ⟨by decide, by decide⟩

/-- C4 (amended): when every pool name matching `<target>_<digits>` carries
the canonical decimal representation of a positive integer, and the pool is
duplicate-free, the mangler returns `target_m` for the least positive `m`
with `target_m` not in the pool — so fresh targets get `_1`, saturated runs
`1..k` extend to `_(k+1)`, and gaps are filled. -/
theorem mangler_minimal_suffix (t : String) (pool : List String)
    (hnd : pool.Nodup)
    (hcanon : ∀ x ∈ pool, ∀ n, matchSuffixNum t.data x.data = some n →
      1 ≤ n ∧ x.data = t.data ++ '_' :: natRepr n) :
    ∃ m, 1 ≤ m ∧ _name_mangler t pool = ⟨t.data ++ '_' :: natRepr m⟩ ∧
      (⟨t.data ++ '_' :: natRepr m⟩ : String) ∉ pool ∧
      ∀ j, 1 ≤ j → j < m → (⟨t.data ++ '_' :: natRepr j⟩ : String) ∈ pool := by
  have hchar : ∀ n, n ∈ pool.filterMap (fun x => matchSuffixNum t.data x.data) ↔
      (1 ≤ n ∧ (⟨t.data ++ '_' :: natRepr n⟩ : String) ∈ pool) := by
    intro n
    constructor
    · intro hmem
      obtain ⟨x, hx, hfx⟩ := List.mem_filterMap.mp hmem
      obtain ⟨h1, h2⟩ := hcanon x hx n hfx
      have hxe : x = (⟨t.data ++ '_' :: natRepr n⟩ : String) := by
        cases x
        exact congrArg String.mk (by simpa using h2)
      exact ⟨h1, hxe ▸ hx⟩
    · intro ⟨_, h2⟩
      exact List.mem_filterMap.mpr ⟨_, h2, matchSuffixNum_mk t.data n⟩
  have hfnd : (pool.filterMap (fun x => matchSuffixNum t.data x.data)).Nodup := by
    refine nodup_filterMap_of_inj_on _ pool hnd ?_
    intro a ha b hb c h1 h2
    have hda := (hcanon a ha c h1).2
    have hdb := (hcanon b hb c h2).2
    cases a
    cases b
    simp_all
  have hpos : ∀ n ∈ pool.filterMap (fun x => matchSuffixNum t.data x.data), 1 ≤ n := by
    intro n hn
    obtain ⟨x, hx, hfx⟩ := List.mem_filterMap.mp hn
    exact (hcanon x hx n hfx).1
  obtain ⟨m, hres, hm1, hnotin, hbelow⟩ := mangler_core t pool hfnd hpos
  refine ⟨m, hm1, hres, ?_, ?_⟩
  · intro hmem
    exact hnotin ((hchar m).mpr ⟨hm1, hmem⟩)
  · intro j hj1 hjm
    exact ((hchar j).mp (hbelow j hj1 hjm)).2

/-- Witness for `mangler_minimal_suffix` at a concrete input. -/
theorem mangler_minimal_suffix_witness :
    ∃ m, 1 ≤ m ∧ _name_mangler "T" ["T_1", "T_3"] = ⟨"T".data ++ '_' :: natRepr m⟩ ∧
      (⟨"T".data ++ '_' :: natRepr m⟩ : String) ∉ (["T_1", "T_3"] : List String) ∧
      ∀ j, 1 ≤ j → j < m →
        (⟨"T".data ++ '_' :: natRepr j⟩ : String) ∈ (["T_1", "T_3"] : List String) := by
  refine mangler_minimal_suffix "T" ["T_1", "T_3"] (by decide) ?_
  intro x hx n h
  rcases List.mem_cons.mp hx with rfl | hx
  · rw [show matchSuffixNum "T".data "T_1".data = some 1 from rfl] at h
    obtain rfl := Option.some.inj h
    exact ⟨by decide, by decide⟩
  rcases List.mem_cons.mp hx with rfl | hx
  · rw [show matchSuffixNum "T".data "T_3".data = some 3 from rfl] at h
    obtain rfl := Option.some.inj h
    exact ⟨by decide, by decide⟩
  · exact absurd hx (List.not_mem_nil x)

/-- Counterexample to C4 as stated: in the set `{T_0, T_1, T_2}` the names
`T_1` and `T_2` are used and `T_3` is free, so the claim requires `T_3`;
the code returns `T_1` (already in use) because the `T_0` entry desynchronises
the gap scan. -/
theorem mangler_minimal_suffix_counterexample :
    _name_mangler "T" ["T_0", "T_1", "T_2"] = "T_1" ∧
      ("T_1" : String) ∈ (["T_0", "T_1", "T_2"] : List String) ∧
      ("T_2" : String) ∈ (["T_0", "T_1", "T_2"] : List String) ∧
      ("T_3" : String) ∉ (["T_0", "T_1", "T_2"] : List String) ∧
      ("T_1" : String) ≠ "T_3" := by
  exact ⟨by decide, by decide, by decide, by decide, by decide⟩

/-! ### Plumbing lemmas for `insert` -/

lemma all_user_knobs_error {w : World} {e : KWErr}
    (h : all_user_knobs w = .error e) : e = .malformedNode := by
  unfold all_user_knobs at h
  split at h
  · simp only [Except.error.injEq] at h
    exact h.symm
  · exact absurd h (by simp)

lemma all_user_knobs_ok {w : World} {pre : List Nat} (h : all_user_knobs w = .ok pre) :
    ∃ m, w.node.findIdx? (fun k => w.names k == lastknob_class_map w.cls) = some m ∧
      pre = w.node.drop (m + 1) := by
  unfold all_user_knobs at h
  split at h
  · exact absurd h (by simp)
  · next m hm =>
    simp only [Except.ok.injEq] at h
    exact ⟨m, hm, h.symm⟩

lemma insertApply_world (w : World) (new pre : List Nat) (ip : Nat) :
    (insertApply w new pre ip).world =
      ⟨mangledNames w new,
        nodeAfter w.node (removesOf pre (proposedOf pre new ip))
          (appendsOf pre (proposedOf pre new ip)), w.cls⟩ := by
  simp only [insertApply]
  split <;> rfl

lemma insertApply_calls (w : World) (new pre : List Nat) (ip : Nat) :
    (insertApply w new pre ip).calls =
      (removesOf pre (proposedOf pre new ip)).map HostCall.removeKnob ++
        (appendsOf pre (proposedOf pre new ip)).map HostCall.addKnob := by
  simp only [insertApply]
  split <;> rfl

lemma insertApply_out_ok {w : World} {new pre : List Nat} {ip : Nat} {post : List Nat}
    (h : all_user_knobs (insertApply w new pre ip).world = .ok post) :
    (insertApply w new pre ip).out = .ok (post.filter (fun x => x ∉ pre)) := by
  rw [insertApply_world] at h
  simp only [insertApply]
  split
  · next e he => rw [he] at h; exact absurd h (by simp)
  · next p hp =>
    rw [hp] at h
    simp only [Except.ok.injEq] at h
    rw [h]

lemma insertApply_out_ok_exists {w : World} {new pre : List Nat} {ip : Nat} {r : List Nat}
    (h : (insertApply w new pre ip).out = .ok r) :
    ∃ post, all_user_knobs (insertApply w new pre ip).world = .ok post ∧
      r = post.filter (fun x => x ∉ pre) := by
  rw [insertApply_world]
  revert h
  simp only [insertApply]
  split
  · next e he => intro h; exact absurd h (by simp)
  · next p hp =>
    intro h
    simp only [Except.ok.injEq] at h
    exact ⟨p, hp, h.symm⟩

/-- On the success path of validation and resolution, `insert` is the
mutation phase. -/
lemma insert_eq_apply {w : World} {new : List Nat} {kp : Option (String ⊕ Nat)}
    {b : Bool} {kpk : Option Nat} {pre : List Nat} {ip : Nat}
    (hnd : new.Nodup)
    (hkp : resolveKnobPoint w kp = .ok kpk)
    (hpre : all_user_knobs w = .ok pre)
    (hip : _calculate_insertion_point pre kpk b = .ok ip) :
    insert new w kp b = insertApply w new pre ip := by
  unfold insert
  rw [if_neg (by simpa using hnd), hkp]
  dsimp only
  rw [hpre]
  dsimp only
  rw [hip]

/-! ### The divergence scan -/

lemma diffIndexAux_self : ∀ (l : List Nat) (i : Nat), diffIndexAux i l l = i + l.length - 1
  | [], i => by simp [diffIndexAux]
  | a :: as, i => by
    show (if a = a then diffIndexAux (i + 1) as as else i) = i + (a :: as).length - 1
    rw [if_pos rfl, diffIndexAux_self as (i + 1)]
    simp only [List.length_cons]
    omega

lemma diffIndex_self (l : List Nat) : diffIndex l l = l.length - 1 := by
  simp [diffIndex, diffIndexAux_self]

/-- C5: the insertion-point resolver.  With no anchor it returns `0`
(before) or the list length (after); with an attached anchor at position
`i` it returns `i` (before) or `i + 1` (after); a detached anchor raises
the not-found error; and every successful result is at most the list
length. -/
theorem calculate_insertion_point_spec (L : List Nat) (a : Nat) (before : Bool) :
    (_calculate_insertion_point L none before = .ok (if before then 0 else L.length)) ∧
    (L.Nodup → ∀ i (h : i < L.length), L[i] = a →
      _calculate_insertion_point L (some a) before = .ok (if before then i else i + 1)) ∧
    (a ∉ L → _calculate_insertion_point L (some a) before = .error .pointNotInList) ∧
    (∀ kp r, _calculate_insertion_point L kp before = .ok r → r ≤ L.length) := by
  refine ⟨rfl, ?_, ?_, ?_⟩
  · intro hnd i h ha
    have hf : L.findIdx? (fun x => x == a) = some i := by
      rw [List.findIdx?_eq_some_iff_getElem]
      refine ⟨h, by simp [ha], ?_⟩
      intro j hji
      simp only [beq_iff_eq, Bool.not_eq_true]
      intro he
      have hinj := List.nodup_iff_injective_getElem.mp hnd
      have : (⟨j, Nat.lt_trans hji h⟩ : Fin L.length) = ⟨i, h⟩ :=
        hinj (by simpa using he.trans ha.symm)
      simp only [Fin.mk.injEq] at this
      omega
    unfold _calculate_insertion_point
    dsimp only
    rw [hf]
  · intro hna
    have hf : L.findIdx? (fun x => x == a) = none := by
      rw [List.findIdx?_eq_none_iff]
      intro x hx
      simp only [beq_eq_false_iff_ne, ne_eq]
      intro he
      exact hna (he ▸ hx)
    unfold _calculate_insertion_point
    dsimp only
    rw [hf]
  · intro kp r hr
    cases kp with
    | none =>
      unfold _calculate_insertion_point at hr
      dsimp only at hr
      simp only [Except.ok.injEq] at hr
      cases before <;> simp_all
      omega
    | some k =>
      unfold _calculate_insertion_point at hr
      dsimp only at hr
      cases hf : L.findIdx? (fun x => x == k) with
      | none => rw [hf] at hr; exact absurd hr (by simp)
      | some i =>
        rw [hf] at hr
        simp only [Except.ok.injEq] at hr
        have hi : i < L.length := (List.findIdx?_eq_some_iff_getElem.mp hf).1
        cases before <;> simp_all <;> omega

/-- Witness for `calculate_insertion_point_spec` at a concrete input. -/
theorem calculate_insertion_point_spec_witness :
    _calculate_insertion_point [5, 7] (some 7) false = .ok 2 := by
  have h := (calculate_insertion_point_spec [5, 7] 7 false).2.1 (by decide) 1 (by decide) rfl
  simpa using h

/-- Counterexample to C1 as stated: a node with one user knob, reconciled
against an identical proposed list (empty batch), still issues one
`removeKnob` and one `addKnob` call — the divergence loop leaves `index`
at the last position rather than one past it, so the last user knob is
popped and re-added. -/
theorem insert_noop_counterexample :
    (insert [] ⟨fun i => if i = 0 then "useLifetime" else "A", [0, 1], "Grade"⟩
        none false).calls = [HostCall.removeKnob 1, HostCall.addKnob 1] ∧
      [HostCall.removeKnob 1, HostCall.addKnob 1] ≠ ([] : List HostCall) := by
  exact ⟨by decide, by decide⟩

/-- C1 (amended): reconciling a node against an unchanged user list (empty
batch, no anchor) leaves the node's knob list and the result unchanged and
returns no new knobs; it performs zero host calls when the user list is
empty, and exactly one `removeKnob` plus one `addKnob` — both of the last
user knob — when it is not. -/
theorem insert_self_reconcile (w : World) (pre : List Nat)
    (hnd : w.node.Nodup) (hpre : all_user_knobs w = .ok pre) :
    ((insert [] w none false).world.node = w.node ∧
      (insert [] w none false).out = .ok []) ∧
    (pre = [] → (insert [] w none false).calls = []) ∧
    (∀ xs x, pre = xs ++ [x] →
      (insert [] w none false).calls = [HostCall.removeKnob x, HostCall.addKnob x]) := by
  have heq : insert [] w none false = insertApply w [] pre pre.length :=
    insert_eq_apply (by simp) rfl hpre rfl
  have hprop : proposedOf pre [] pre.length = pre := by
    simp [proposedOf]
  have hnames : mangledNames w [] = w.names := by
    simp [mangledNames, mangleLoop]
  obtain ⟨m, hm, hdrop⟩ := all_user_knobs_ok hpre
  have hnode : w.node = w.node.take (m + 1) ++ pre := by
    rw [hdrop, List.take_append_drop]
  rcases pre.eq_nil_or_concat with hnil | ⟨xs, x, hxs⟩
  · subst hnil
    have hworld : (insertApply w [] [] 0).world = w := by
      rw [insertApply_world]
      show World.mk _ _ _ = w
      rw [hnames]
      show World.mk w.names (nodeAfter w.node [] []) w.cls = w
      simp [nodeAfter]
    have hcalls : (insertApply w [] [] 0).calls = [] := by
      rw [insertApply_calls]
      rfl
    have hout : (insertApply w [] [] 0).out = .ok [] := by
      have hk : all_user_knobs (insertApply w [] [] 0).world = .ok [] := by
        rw [hworld]; exact hpre
      rw [insertApply_out_ok hk]
      simp
    have hlen : ([] : List Nat).length = 0 := rfl
    refine ⟨⟨?_, ?_⟩, fun _ => ?_, fun ys y hy => by simp at hy⟩
    · rw [heq, hlen, hworld]
    · rw [heq, hlen, hout]
    · rw [heq, hlen, hcalls]
  · -- pre ends in x: the scan index is `pre.length - 1`, so exactly the
    -- last user knob is removed and re-appended
    rw [List.concat_eq_append] at hxs
    subst hxs
    have hlen1 : (xs ++ [x]).length - 1 = xs.length := by simp
    have hrm : removesOf (xs ++ [x])
        (proposedOf (xs ++ [x]) [] (xs ++ [x]).length) = [x] := by
      unfold removesOf
      rw [hprop, diffIndex_self, hlen1, List.drop_left]
    have hap : appendsOf (xs ++ [x])
        (proposedOf (xs ++ [x]) [] (xs ++ [x]).length) = [x] := by
      unfold appendsOf
      rw [hprop, diffIndex_self, hlen1, List.drop_left]
    have hxnotin : x ∉ w.node.take (m + 1) ++ xs := by
      intro hmem
      have hnd2 := hnd
      rw [hnode, ← List.append_assoc] at hnd2
      exact (List.nodup_append.mp hnd2).2.2 hmem (List.mem_singleton_self x)
    have hnode2 : nodeAfter w.node [x] [x] = w.node := by
      show (w.node.erase x) ++ [x] = w.node
      conv_lhs => rw [hnode, ← List.append_assoc]
      conv_rhs => rw [hnode, ← List.append_assoc]
      rw [List.erase_append_right _ hxnotin]
      simp
    have hworld : (insertApply w [] (xs ++ [x]) (xs ++ [x]).length).world = w := by
      rw [insertApply_world, hnames, hrm, hap, hnode2]
    have hcalls : (insertApply w [] (xs ++ [x]) (xs ++ [x]).length).calls =
        [HostCall.removeKnob x, HostCall.addKnob x] := by
      rw [insertApply_calls, hrm, hap]
      rfl
    have hout : (insertApply w [] (xs ++ [x]) (xs ++ [x]).length).out = .ok [] := by
      have hk : all_user_knobs (insertApply w [] (xs ++ [x]) (xs ++ [x]).length).world =
          .ok (xs ++ [x]) := by
        rw [hworld]; exact hpre
      rw [insertApply_out_ok hk]
      simp only [Except.ok.injEq]
      rw [List.filter_eq_nil_iff]
      intro y hy
      simp [hy]
    refine ⟨⟨?_, ?_⟩, fun h0 => ?_, fun ys y hy => ?_⟩
    · rw [heq, hworld]
    · rw [heq, hout]
    · simp at h0
    · have hyx : y = x := by
        have h1 := congrArg (fun l => List.getLast? l) hy
        simpa using h1.symm
      rw [heq, hcalls, hyx]

/-- Witness for `insert_self_reconcile` at a concrete input. -/
theorem insert_self_reconcile_witness :
    (insert [] ⟨fun i => if i = 0 then "useLifetime" else "B", [0, 1], "Grade"⟩
        none false).calls = [HostCall.removeKnob 1, HostCall.addKnob 1] :=
  (insert_self_reconcile ⟨fun i => if i = 0 then "useLifetime" else "B", [0, 1], "Grade"⟩
      [1] (by decide) (by rfl)).2.2 [] 1 rfl

/-! ### Characterising the divergence scan -/

/-- What the scan index is: either the first position (inside the old
list) where old and proposed disagree by identity, or — when the old list
is entirely a prefix of the proposed one — its last position
(`old.length - 1`, which is `0` for an empty old list). -/
def divergeSpec (old prop : List Nat) (k : Nat) : Prop :=
  ((∀ j, j < k → old[j]? = prop[j]?) ∧ k < old.length ∧ old[k]? ≠ prop[k]?)
  ∨ ((∀ j, j < old.length → old[j]? = prop[j]?) ∧ k = old.length - 1)

lemma diffIndexAux_succ : ∀ (as bs : List Nat) (i : Nat), as ≠ [] →
    diffIndexAux (i + 1) as bs = diffIndexAux i as bs + 1
  | [], _, _, h => absurd rfl h
  | _ :: _, [], _, _ => rfl
  | a :: as, b :: bs, i, _ => by
    show (if a = b then diffIndexAux (i + 1 + 1) as bs else i + 1) =
      (if a = b then diffIndexAux (i + 1) as bs else i) + 1
    by_cases hab : a = b
    · rw [if_pos hab, if_pos hab]
      rcases as with _ | ⟨c, cs⟩
      · rfl
      · exact diffIndexAux_succ (c :: cs) bs (i + 1) (by simp)
    · rw [if_neg hab, if_neg hab]

lemma diffIndex_cons_eq (a : Nat) (as bs : List Nat) :
    diffIndex (a :: as) (a :: bs) = if as = [] then 0 else diffIndex as bs + 1 := by
  show (if a = a then diffIndexAux 1 as bs else 0) = _
  rw [if_pos rfl]
  rcases as with _ | ⟨c, cs⟩
  · rfl
  · rw [if_neg (by simp)]
    exact diffIndexAux_succ (c :: cs) bs 0 (by simp)

lemma diffIndex_cons_ne {a b : Nat} (as bs : List Nat) (h : a ≠ b) :
    diffIndex (a :: as) (b :: bs) = 0 := by
  show (if a = b then diffIndexAux 1 as bs else 0) = 0
  rw [if_neg h]

lemma diffIndex_divergeSpec : ∀ (old prop : List Nat), old.length ≤ prop.length →
    divergeSpec old prop (diffIndex old prop) := by
  intro old
  induction old with
  | nil =>
    intro prop _
    right
    exact ⟨fun j hj => by simp at hj, rfl⟩
  | cons a as ih =>
    intro prop hlen
    cases prop with
    | nil => simp at hlen
    | cons b bs =>
      by_cases hab : a = b
      · subst hab
        rw [diffIndex_cons_eq]
        cases as with
        | nil =>
          rw [if_pos rfl]
          right
          refine ⟨?_, rfl⟩
          intro j hj
          simp only [List.length_cons, List.length_nil] at hj
          have hj0 : j = 0 := by omega
          subst hj0
          simp
        | cons c cs =>
          rw [if_neg (by simp)]
          have hlen' : (c :: cs).length ≤ bs.length := by
            simp only [List.length_cons] at hlen ⊢
            omega
          rcases ih bs hlen' with ⟨hpref, hlt, hne⟩ | ⟨hall, hk⟩
          · left
            refine ⟨?_, by simpa using hlt, by simpa using hne⟩
            intro j hj
            cases j with
            | zero => simp
            | succ j =>
              simpa using hpref j (by omega)
          · right
            refine ⟨?_, ?_⟩
            · intro j hj
              cases j with
              | zero => simp
              | succ j =>
                have hj' : j < (c :: cs).length := by
                  simp only [List.length_cons] at hj ⊢
                  omega
                simpa using hall j hj'
            · simp only [List.length_cons] at hk ⊢
              omega
      · left
        rw [diffIndex_cons_ne _ _ hab]
        exact ⟨fun j hj => by omega, by simp, by simp [hab]⟩

/-- Counterexample to C2 as stated: inserting knob 3 before anchor knob 1
on a node whose user knobs are `[1, 2]` diverges at index 0, and the code
removes knob 1 *then* knob 2 — forward order — whereas the claim requires
reverse order (knob 2 first). -/
theorem insert_reverse_removal_counterexample :
    ((insert [3] ⟨fun i => if i = 0 then "useLifetime" else if i = 1 then "A"
          else if i = 2 then "B" else "C", [0, 1, 2], "Grade"⟩
        (some (.inr 1)) true).calls =
      [HostCall.removeKnob 1, HostCall.removeKnob 2, HostCall.addKnob 3,
        HostCall.addKnob 1, HostCall.addKnob 2]) ∧
    [HostCall.removeKnob 1, HostCall.removeKnob 2, HostCall.addKnob 3,
        HostCall.addKnob 1, HostCall.addKnob 2] ≠
      [HostCall.removeKnob 2, HostCall.removeKnob 1, HostCall.addKnob 3,
        HostCall.addKnob 1, HostCall.addKnob 2] :=
  ⟨by decide, by decide⟩

/-- C2 (amended): for every insert call that reaches the mutation phase,
with `proposed` the user list with the batch spliced in at the resolved
gap index, the scan index `k` is the first identity-divergence position —
except that when the old user list is entirely a prefix of `proposed` it
is `old.length - 1` instead of `old.length` — and the host calls are
exactly the removals of `old[k:]` in FORWARD order followed by the appends
of `proposed[k:]` in forward order. -/
theorem insert_reconcile_calls (w : World) (new : List Nat)
    (kp : Option (String ⊕ Nat)) (b : Bool) (kpk : Option Nat)
    (pre : List Nat) (ip : Nat)
    (hnd : new.Nodup) (hkp : resolveKnobPoint w kp = .ok kpk)
    (hpre : all_user_knobs w = .ok pre)
    (hip : _calculate_insertion_point pre kpk b = .ok ip) :
    ∃ proposed k, proposed = pre.take ip ++ new ++ pre.drop ip ∧ ip ≤ pre.length ∧
      divergeSpec pre proposed k ∧
      (insert new w kp b).calls =
        (pre.drop k).map HostCall.removeKnob ++
          (proposed.drop k).map HostCall.addKnob := by
  rw [insert_eq_apply hnd hkp hpre hip, insertApply_calls]
  have hiple : ip ≤ pre.length :=
    (calculate_insertion_point_spec pre 0 b).2.2.2 kpk ip hip
  refine ⟨proposedOf pre new ip, diffIndex pre (proposedOf pre new ip),
    rfl, hiple, ?_, rfl⟩
  apply diffIndex_divergeSpec
  simp only [proposedOf, List.length_append, List.length_take, List.length_drop]
  omega

/-- Witness for `insert_reconcile_calls` at a concrete input. -/
theorem insert_reconcile_calls_witness :
    ∃ proposed k, proposed = ([1, 2] : List Nat).take 0 ++ [3] ++ ([1, 2] : List Nat).drop 0 ∧
      0 ≤ ([1, 2] : List Nat).length ∧
      divergeSpec [1, 2] proposed k ∧
      (insert [3] ⟨fun i => if i = 0 then "useLifetime" else if i = 1 then "A"
            else if i = 2 then "B" else "C", [0, 1, 2], "Grade"⟩
          (some (.inr 1)) true).calls =
        (([1, 2] : List Nat).drop k).map HostCall.removeKnob ++
          (proposed.drop k).map HostCall.addKnob :=
  insert_reconcile_calls _ [3] (some (.inr 1)) true (some 1) [1, 2] 0
    (by decide) (by rfl) (by rfl) (by rfl)

lemma insertApply_out_error {w : World} {new pre : List Nat} {ip : Nat} {e : KWErr}
    (h : (insertApply w new pre ip).out = .error e) : e = .malformedNode := by
  revert h
  simp only [insertApply]
  split
  · next e' he' =>
    intro h
    simp only [Except.error.injEq] at h
    exact h ▸ all_user_knobs_error he'
  · next p _ =>
    intro h
    exact absurd h (by simp)

/-- C7: duplicate-input and invalid-insertion-point failures are atomic:
every `insert` call whose error is `duplicateInput`, `pointNameNotFound`
or `pointNotInList` raises it during validation/resolution, before any
host `removeKnob`/`addKnob` call, and leaves the object untouched. -/
theorem insert_validation_atomic (w : World) (new : List Nat)
    (kp : Option (String ⊕ Nat)) (b : Bool) (e : KWErr)
    (he : e = .duplicateInput ∨ e = .pointNameNotFound ∨ e = .pointNotInList)
    (herr : (insert new w kp b).out = .error e) :
    (insert new w kp b).world = w ∧ (insert new w kp b).calls = [] := by
  unfold insert at herr ⊢
  by_cases hd : ¬ new.Nodup
  · rw [if_pos hd] at herr ⊢
    exact ⟨rfl, rfl⟩
  · rw [if_neg hd] at herr ⊢
    revert herr
    cases hkp : resolveKnobPoint w kp with
    | error e' => intro _; exact ⟨rfl, rfl⟩
    | ok kpk =>
      dsimp only
      cases hpre : all_user_knobs w with
      | error e' => intro _; exact ⟨rfl, rfl⟩
      | ok pre =>
        dsimp only
        cases hip : _calculate_insertion_point pre kpk b with
        | error e' => intro _; exact ⟨rfl, rfl⟩
        | ok ip =>
          intro herr
          have hmal := insertApply_out_error herr
          rcases he with rfl | rfl | rfl <;> simp_all

/-- Witness for `insert_validation_atomic` at a concrete input: a batch
containing the same knob identity twice. -/
theorem insert_validation_atomic_witness :
    (insert [2, 2] ⟨fun i => if i = 0 then "useLifetime" else "A", [0, 1], "Grade"⟩
        none false).world = ⟨fun i => if i = 0 then "useLifetime" else "A", [0, 1], "Grade"⟩ ∧
      (insert [2, 2] ⟨fun i => if i = 0 then "useLifetime" else "A", [0, 1], "Grade"⟩
        none false).calls = [] :=
  insert_validation_atomic ⟨fun i => if i = 0 then "useLifetime" else "A", [0, 1], "Grade"⟩
    [2, 2] none false .duplicateInput (Or.inl rfl) (by rfl)

/-- C10: `mangle_knob_name` is the identity for attached knobs — a knob
already on the node (by identity) gets its current name back and is never
renamed, even if another knob carries the same name; and a detached knob
whose name is unused is likewise returned unchanged, so mangling is only
computed for a detached knob whose name is already taken. -/
theorem mangle_knob_name_attached (k : Nat) (w : World) (rename : Bool) :
    (k ∈ w.node → mangle_knob_name k w rename = (w.names k, w)) ∧
    (k ∉ w.node → w.names k ∉ w.node.map w.names →
      mangle_knob_name k w rename = (w.names k, w)) := by
  constructor
  · intro h
    unfold mangle_knob_name
    rw [if_pos h]
  · intro h hn
    unfold mangle_knob_name
    rw [if_neg h, if_pos hn]

/-- Witness for `mangle_knob_name_attached` at a concrete input: knob 1 is
attached and knob 0 carries the same name, yet the call returns knob 1's
current name and does not touch the world. -/
theorem mangle_knob_name_attached_witness :
    mangle_knob_name 1 ⟨fun _ => "A", [0, 1], "Grade"⟩ true =
      ("A", ⟨fun _ => "A", [0, 1], "Grade"⟩) :=
  (mangle_knob_name_attached 1 ⟨fun _ => "A", [0, 1], "Grade"⟩ true).1 (by decide)

/-! ### Helpers shared by the boundary-preservation arguments -/

lemma findIdx?_congr_mem {α : Type} (p q : α → Bool) : ∀ l : List α,
    (∀ x ∈ l, p x = q x) → l.findIdx? p = l.findIdx? q := by
  intro l
  induction l with
  | nil => intro _; rfl
  | cons x xs ih =>
    intro h
    rw [List.findIdx?_cons, List.findIdx?_cons, h x (List.mem_cons_self _ _)]
    by_cases hq : q x
    · rw [if_pos hq, if_pos hq]
    · rw [if_neg hq, if_neg hq, List.findIdx?_succ, List.findIdx?_succ,
        ih fun y hy => h y (List.mem_cons_of_mem _ hy)]

lemma mangleLoop_names_of_not_mem : ∀ (ks : List Nat) (ns : Nat → String)
    (ex : List String) (j : Nat), j ∉ ks → (mangleLoop ns ex ks).1 j = ns j
  | [], _, _, _, _ => rfl
  | k :: ks, ns, ex, j, h => by
    show (if ns k ∈ ex then _ else _ : (Nat → String) × List String).1 j = ns j
    by_cases hm : ns k ∈ ex
    · rw [if_pos hm,
        mangleLoop_names_of_not_mem ks _ _ j fun hj => h (List.mem_cons_of_mem _ hj)]
      exact if_neg fun he => h (by rw [he]; exact List.mem_cons_self k ks)
    · rw [if_neg hm]
      exact mangleLoop_names_of_not_mem ks ns _ j fun hj => h (List.mem_cons_of_mem _ hj)

lemma foldl_erase_append (P Q : List Nat) : ∀ rs : List Nat, (∀ x ∈ rs, x ∉ P) →
    rs.foldl (fun n x => n.erase x) (P ++ Q) = P ++ rs.foldl (fun n x => n.erase x) Q
  | [], _ => rfl
  | r :: rs, h => by
    show rs.foldl (fun n x => n.erase x) ((P ++ Q).erase r) = _
    rw [List.erase_append_right _ (h r (List.mem_cons_self _ _))]
    exact foldl_erase_append P (Q.erase r) rs fun x hx => h x (List.mem_cons_of_mem _ hx)

lemma mangler_last_digit (t : String) (pool : List String) :
    ∃ c, (_name_mangler t pool).data.getLast? = some c ∧ c.isDigit = true := by
  show ∃ c, (t.data ++ '_' :: natRepr (firstMismatch 1 (List.insertionSort (· ≤ ·)
    (pool.filterMap fun x => matchSuffixNum t.data x.data)))).getLast? = some c ∧
    c.isDigit = true
  set n := firstMismatch 1 (List.insertionSort (· ≤ ·)
    (pool.filterMap fun x => matchSuffixNum t.data x.data))
  rcases (natRepr n).eq_nil_or_concat with hnil | ⟨ds, d, hds⟩
  · exact absurd hnil (natRepr_ne_nil n)
  · rw [List.concat_eq_append] at hds
    refine ⟨d, ?_, ?_⟩
    · rw [hds, show t.data ++ '_' :: (ds ++ [d]) = (t.data ++ '_' :: ds) ++ [d] by simp,
        List.getLast?_concat]
    · exact natRepr_digits n d (hds ▸ List.mem_append_right ds (List.mem_singleton_self d))

/-- The mangled name always ends in a digit, while every boundary-marker
name ends in a letter, so renaming can never fabricate a boundary knob. -/
lemma mangler_ne_lastknob (t : String) (pool : List String) (cls : String) :
    _name_mangler t pool ≠ lastknob_class_map cls := by
  obtain ⟨c, hc, hdig⟩ := mangler_last_digit t pool
  intro he
  rw [he] at hc
  have hnd : ((lastknob_class_map cls).data.getLast?.all fun d => !d.isDigit) = true := by
    unfold lastknob_class_map
    split_ifs <;> decide
  rw [hc] at hnd
  simp only [Option.all_some] at hnd
  rw [hdig] at hnd
  exact absurd hnd (by decide)

lemma mangledNames_single (w : World) (a : Nat) :
    mangledNames w [a] =
      if w.names a ∈ nodeNames w
      then fun j => if j = a then _name_mangler (w.names a) (nodeNames w) else w.names j
      else w.names := by
  unfold mangledNames mangleLoop
  split_ifs with h
  · rfl
  · rfl

lemma insert_ok_inv {w : World} {new : List Nat} {kp : Option (String ⊕ Nat)}
    {b : Bool} {r : List Nat} (h : (insert new w kp b).out = .ok r) :
    ∃ kpk pre ip, new.Nodup ∧ resolveKnobPoint w kp = .ok kpk ∧
      all_user_knobs w = .ok pre ∧ _calculate_insertion_point pre kpk b = .ok ip ∧
      insert new w kp b = insertApply w new pre ip := by
  revert h
  unfold insert
  by_cases hd : ¬ new.Nodup
  · rw [if_pos hd]
    intro h
    exact absurd h (by simp)
  · rw [if_neg hd]
    have hd' : new.Nodup := not_not.mp hd
    cases hkp : resolveKnobPoint w kp with
    | error e => intro h; exact absurd h (by simp)
    | ok kpk =>
      dsimp only
      cases hpre : all_user_knobs w with
      | error e => intro h; exact absurd h (by simp)
      | ok pre =>
        dsimp only
        cases hip : _calculate_insertion_point pre kpk b with
        | error e => intro h; exact absurd h (by simp)
        | ok ip =>
          intro _
          exact ⟨kpk, pre, ip, hd', rfl, rfl, hip, rfl⟩

/-- C9: for every completing `insert`, the returned sequence is the user
fields present after the call that were not present before (difference by
identity, in post-call order); and an anchorless single-field insert onto
a node with zero user fields returns exactly that one field, which is the
last field of the node's full list afterwards. -/
theorem insert_return_spec :
    (∀ (w : World) (new : List Nat) (kp : Option (String ⊕ Nat)) (b : Bool)
        (pre r post : List Nat),
      all_user_knobs w = .ok pre →
      (insert new w kp b).out = .ok r →
      all_user_knobs (insert new w kp b).world = .ok post →
      r = post.filter (fun x => x ∉ pre)) ∧
    (∀ (w : World) (a : Nat) (r : List Nat),
      all_user_knobs w = .ok [] →
      (insert [a] w none false).out = .ok r →
      r = [a] ∧ (insert [a] w none false).world.node.getLast? = some a) := by
  constructor
  · intro w new kp b pre r post hpre hok hpost
    obtain ⟨kpk, pre', ip, hnd, hkp, hpre', hip, heq⟩ := insert_ok_inv hok
    have hpp : pre' = pre := by
      rw [hpre] at hpre'
      exact (Except.ok.inj hpre').symm
    subst hpp
    rw [heq] at hok hpost
    obtain ⟨post', hpost', hr⟩ := insertApply_out_ok_exists hok
    rw [hpost'] at hpost
    obtain rfl := Except.ok.inj hpost
    exact hr
  · intro w a r hpre0 hok
    obtain ⟨kpk, pre', ip, hnd, hkp, hpre', hip, heq⟩ := insert_ok_inv hok
    have hkpk : (Except.ok kpk : Except KWErr (Option Nat)) = .ok none := hkp.symm
    obtain rfl := Except.ok.inj hkpk
    have hpre'' : pre' = [] := by
      rw [hpre0] at hpre'
      exact (Except.ok.inj hpre').symm
    subst hpre''
    have hip0 : (Except.ok ip : Except KWErr Nat) = .ok 0 := hip.symm
    obtain rfl := Except.ok.inj hip0
    rw [heq] at hok ⊢
    obtain ⟨m, hm, hdropm⟩ := all_user_knobs_ok hpre0
    have hmlt : m < w.node.length := (List.findIdx?_eq_some_iff_getElem.mp hm).1
    have hlen : w.node.length = m + 1 := by
      have h1 := congrArg List.length hdropm
      simp only [List.length_nil, List.length_drop] at h1
      omega
    have hworld : (insertApply w [a] [] 0).world =
        ⟨mangledNames w [a], w.node ++ [a], w.cls⟩ := by
      rw [insertApply_world]
      rfl
    obtain ⟨post, hpost, hr⟩ := insertApply_out_ok_exists hok
    rw [hworld] at hpost
    obtain ⟨hmlt2, hpm, hmin⟩ := List.findIdx?_eq_some_iff_getElem.mp hm
    have hfi : (w.node ++ [a]).findIdx?
        (fun k => mangledNames w [a] k == lastknob_class_map w.cls) = some m := by
      by_cases hren : w.names a ∈ nodeNames w
      · have hn2 : mangledNames w [a] = fun j =>
            if j = a then _name_mangler (w.names a) (nodeNames w) else w.names j := by
          rw [mangledNames_single, if_pos hren]
        have hma : mangledNames w [a] a = _name_mangler (w.names a) (nodeNames w) := by
          rw [hn2]
          exact if_pos rfl
        have hmne : ∀ x, x ≠ a → mangledNames w [a] x = w.names x := by
          intro x hxa
          rw [hn2]
          exact if_neg hxa
        have hpred2a :
            (mangledNames w [a] a == lastknob_class_map w.cls) = false := by
          rw [hma]
          exact beq_eq_false_iff_ne.mpr (mangler_ne_lastknob _ _ _)
        by_cases hpa : w.names a = lastknob_class_map w.cls
        · by_cases hain : a ∈ w.node
          · -- the inserted knob IS the boundary knob and gets renamed:
            -- no boundary knob remains, `all_user_knobs` raises, and the
            -- call cannot have completed
            exfalso
            obtain ⟨j, hj, hja⟩ := List.getElem_of_mem hain
            have hjm : j = m := by
              by_contra hne
              have hjlt : j < m := by omega
              exact hmin j hjlt (by rw [hja]; exact beq_iff_eq.mpr hpa)
            subst hjm
            have hnone : (w.node ++ [a]).findIdx?
                (fun k => mangledNames w [a] k == lastknob_class_map w.cls) = none := by
              rw [List.findIdx?_eq_none_iff]
              intro x hx
              by_cases hxa : x = a
              · rw [hxa]
                exact hpred2a
              · have hxnode : x ∈ w.node := by
                  rcases List.mem_append.mp hx with h | h
                  · exact h
                  · exact absurd (List.mem_singleton.mp h) hxa
                obtain ⟨i, hi, hix⟩ := List.getElem_of_mem hxnode
                have him : i ≠ j := by
                  intro he
                  subst he
                  exact hxa (hix.symm.trans hja)
                have hilt : i < j := by omega
                rw [hmne x hxa]
                have hx2 := hmin i hilt
                rw [hix] at hx2
                simpa using hx2
            rw [show all_user_knobs ⟨mangledNames w [a], w.node ++ [a], w.cls⟩ =
                match (w.node ++ [a]).findIdx?
                  (fun k => mangledNames w [a] k == lastknob_class_map w.cls) with
                | none => Except.error KWErr.malformedNode
                | some i => Except.ok ((w.node ++ [a]).drop (i + 1)) from rfl,
              hnone] at hpost
            exact absurd hpost (by simp)
          · rw [List.findIdx?_append]
            have hcong : w.node.findIdx?
                (fun k => mangledNames w [a] k == lastknob_class_map w.cls) =
                w.node.findIdx? (fun k => w.names k == lastknob_class_map w.cls) := by
              apply findIdx?_congr_mem
              intro x hx
              rw [hmne x fun he => hain (he ▸ hx)]
            rw [hcong, hm]
            rfl
        · rw [List.findIdx?_append]
          have hcong : w.node.findIdx?
              (fun k => mangledNames w [a] k == lastknob_class_map w.cls) =
              w.node.findIdx? (fun k => w.names k == lastknob_class_map w.cls) := by
            apply findIdx?_congr_mem
            intro x hx
            by_cases hxa : x = a
            · subst hxa
              rw [hpred2a, beq_eq_false_iff_ne.mpr hpa]
            · rw [hmne x hxa]
          rw [hcong, hm]
          rfl
      · have hn2 : mangledNames w [a] = w.names := by
          rw [mangledNames_single, if_neg hren]
        rw [hn2, List.findIdx?_append, hm]
        rfl
    have hfinal : all_user_knobs ⟨mangledNames w [a], w.node ++ [a], w.cls⟩ =
        .ok ((w.node ++ [a]).drop (m + 1)) := by
      rw [show all_user_knobs ⟨mangledNames w [a], w.node ++ [a], w.cls⟩ =
          match (w.node ++ [a]).findIdx?
            (fun k => mangledNames w [a] k == lastknob_class_map w.cls) with
          | none => Except.error KWErr.malformedNode
          | some i => Except.ok ((w.node ++ [a]).drop (i + 1)) from rfl,
        hfi]
    rw [hfinal] at hpost
    obtain rfl := Except.ok.inj hpost
    have hpost2 : (w.node ++ [a]).drop (m + 1) = [a] := List.drop_left' hlen
    constructor
    · rw [hr, hpost2]
      simp
    · rw [hworld]
      exact List.getLast?_concat w.node

/-- Witness for `insert_return_spec` at a concrete input: node `[0]`
(boundary knob only, zero user knobs), inserting knob 1 with no anchor. -/
theorem insert_return_spec_witness :
    [1] = [1] ∧
      (insert [1] ⟨fun i => if i = 0 then "useLifetime" else "A", [0], "Grade"⟩
        none false).world.node.getLast? = some 1 := by
  have h := insert_return_spec.2
    ⟨fun i => if i = 0 then "useLifetime" else "A", [0], "Grade"⟩ 1 [1]
    (by rfl) (by rfl)
  exact ⟨rfl, h.2⟩

/-- Counterexample to C8 as stated: inserting an already-attached *fixed*
knob (knob 0, in the fixed region of node `[0, 1]`) completes, renames the
knob, and passes it to the host append primitive — a fixed field handed to
`addKnob`. -/
theorem insert_fixed_counterexample :
    (insert [0] ⟨fun i => if i = 0 then "x" else "useLifetime", [0, 1], "Grade"⟩
        none false).out = .ok [0] ∧
      HostCall.addKnob 0 ∈
        (insert [0] ⟨fun i => if i = 0 then "x" else "useLifetime", [0, 1], "Grade"⟩
          none false).calls ∧
      0 ∈ ([0, 1] : List Nat).take 2 :=
  ⟨by rfl, by decide, by decide⟩

/-- C8 (amended): when the node's knob list is duplicate-free and the
batch is disjoint from the already-attached knobs, every insert call that
runs its mutation phase leaves the fixed prefix — everything up to and
including the boundary knob at index `m` — unchanged in identity and
order, and passes no fixed knob to a host remove or append primitive. -/
theorem insert_fixed_untouched (w : World) (new : List Nat)
    (kp : Option (String ⊕ Nat)) (b : Bool) (kpk : Option Nat) (m ip : Nat)
    (hnodnd : w.node.Nodup)
    (hfresh : ∀ x ∈ new, x ∉ w.node)
    (hnd : new.Nodup)
    (hkp : resolveKnobPoint w kp = .ok kpk)
    (hm : w.node.findIdx? (fun k => w.names k == lastknob_class_map w.cls) = some m)
    (hip : _calculate_insertion_point (w.node.drop (m + 1)) kpk b = .ok ip) :
    (insert new w kp b).world.node.take (m + 1) = w.node.take (m + 1) ∧
    ∀ x ∈ w.node.take (m + 1),
      HostCall.removeKnob x ∉ (insert new w kp b).calls ∧
      HostCall.addKnob x ∉ (insert new w kp b).calls := by
  have hpre : all_user_knobs w = .ok (w.node.drop (m + 1)) := by
    unfold all_user_knobs
    rw [hm]
  have heq := insert_eq_apply hnd hkp hpre hip
  rw [heq, insertApply_world, insertApply_calls]
  have hmlt : m < w.node.length := (List.findIdx?_eq_some_iff_getElem.mp hm).1
  have hPlen : (w.node.take (m + 1)).length = m + 1 := by
    rw [List.length_take]
    omega
  have hsplit : w.node = w.node.take (m + 1) ++ w.node.drop (m + 1) :=
    (List.take_append_drop (m + 1) w.node).symm
  have hdisjPpre : ∀ x ∈ w.node.drop (m + 1), x ∉ w.node.take (m + 1) := by
    intro x hx hP
    have hnd2 := hnodnd
    rw [hsplit] at hnd2
    exact (List.nodup_append.mp hnd2).2.2 hP hx
  have hrm_sub : ∀ x ∈ removesOf (w.node.drop (m + 1))
      (proposedOf (w.node.drop (m + 1)) new ip), x ∈ w.node.drop (m + 1) :=
    fun x hx => List.mem_of_mem_drop hx
  have hap_sub : ∀ x ∈ appendsOf (w.node.drop (m + 1))
      (proposedOf (w.node.drop (m + 1)) new ip),
      x ∈ w.node.drop (m + 1) ∨ x ∈ new := by
    intro x hx
    have hx2 : x ∈ proposedOf (w.node.drop (m + 1)) new ip := List.mem_of_mem_drop hx
    unfold proposedOf at hx2
    rcases List.mem_append.mp hx2 with h | h
    · rcases List.mem_append.mp h with h | h
      · exact Or.inl (List.mem_of_mem_take h)
      · exact Or.inr h
    · exact Or.inl (List.mem_of_mem_drop h)
  have hnode2 : ∀ R A : List Nat, (∀ x ∈ R, x ∈ w.node.drop (m + 1)) →
      nodeAfter w.node R A =
        w.node.take (m + 1) ++
          (R.foldl (fun n x => n.erase x) (w.node.drop (m + 1)) ++ A) := by
    intro R A hR
    unfold nodeAfter
    conv_lhs => rw [hsplit]
    rw [foldl_erase_append _ _ _ fun x hx => hdisjPpre x (hR x hx),
      List.append_assoc]
  constructor
  · show (nodeAfter _ _ _).take (m + 1) = _
    rw [hnode2 _ _ hrm_sub, List.take_left' hPlen]
  · intro x hxP
    have hxnode : x ∈ w.node := List.mem_of_mem_take hxP
    have hxpre : x ∉ w.node.drop (m + 1) := fun hx => hdisjPpre x hx hxP
    constructor
    · intro hmem
      rcases List.mem_append.mp hmem with h | h
      · obtain ⟨y, hy, he⟩ := List.mem_map.mp h
        have hyx : y = x := by injection he
        subst hyx
        exact hxpre (hrm_sub y hy)
      · obtain ⟨y, hy, he⟩ := List.mem_map.mp h
        exact absurd he (by simp)
    · intro hmem
      rcases List.mem_append.mp hmem with h | h
      · obtain ⟨y, hy, he⟩ := List.mem_map.mp h
        exact absurd he (by simp)
      · obtain ⟨y, hy, he⟩ := List.mem_map.mp h
        have hyx : y = x := by injection he
        subst hyx
        rcases hap_sub y hy with h2 | h2
        · exact hxpre h2
        · exact hfresh y h2 hxnode

/-- Witness for `insert_fixed_untouched` at a concrete input. -/
theorem insert_fixed_untouched_witness :
    (insert [2] ⟨fun i => if i = 0 then "useLifetime" else "A", [0, 1], "Grade"⟩
        none false).world.node.take 1 = ([0, 1] : List Nat).take 1 ∧
    ∀ x ∈ ([0, 1] : List Nat).take 1,
      HostCall.removeKnob x ∉
        (insert [2] ⟨fun i => if i = 0 then "useLifetime" else "A", [0, 1], "Grade"⟩
          none false).calls ∧
      HostCall.addKnob x ∉
        (insert [2] ⟨fun i => if i = 0 then "useLifetime" else "A", [0, 1], "Grade"⟩
          none false).calls :=
  insert_fixed_untouched ⟨fun i => if i = 0 then "useLifetime" else "A", [0, 1], "Grade"⟩
    [2] none false none 0 1 (by decide) (by decide) (by decide) (by rfl) (by rfl) (by rfl)

/-! ### Helpers for the batch-renaming claim -/

lemma matchSuffixNum_self (t : List Char) : matchSuffixNum t t = none := by
  unfold matchSuffixNum
  cases hds : dropStart (t ++ ['_']) t with
  | none => rfl
  | some ds =>
    have hlen := congrArg List.length (dropStart_eq_some hds)
    simp only [List.length_append, List.length_cons, List.length_singleton] at hlen
    omega

lemma mangler_of_no_match (t : String) (pool : List String)
    (h : ∀ x ∈ pool, matchSuffixNum t.data x.data = none) :
    _name_mangler t pool = ⟨t.data ++ '_' :: natRepr 1⟩ := by
  have hidx : pool.filterMap (fun x => matchSuffixNum t.data x.data) = [] :=
    List.filterMap_eq_nil_iff.mpr h
  show (⟨t.data ++ '_' :: natRepr (firstMismatch 1 (List.insertionSort (· ≤ ·)
    (pool.filterMap fun x => matchSuffixNum t.data x.data)))⟩ : String) = _
  rw [hidx]
  rfl

lemma diffIndexAux_self_append : ∀ (l ys : List Nat) (i : Nat),
    diffIndexAux i l (l ++ ys) = i + l.length - 1
  | [], _, i => by simp [diffIndexAux]
  | a :: as, ys, i => by
    show (if a = a then diffIndexAux (i + 1) as (as ++ ys) else i) = _
    rw [if_pos rfl, diffIndexAux_self_append as ys (i + 1)]
    simp only [List.length_cons]
    omega

lemma diffIndex_self_append (l ys : List Nat) :
    diffIndex l (l ++ ys) = l.length - 1 := by
  simp [diffIndex, diffIndexAux_self_append]

lemma findIdx?_take_succ {p : Nat → Bool} {l : List Nat} {m : Nat}
    (h : l.findIdx? p = some m) : (l.take (m + 1)).findIdx? p = some m := by
  obtain ⟨hlt, hp, hmin⟩ := List.findIdx?_eq_some_iff_getElem.mp h
  rw [List.findIdx?_eq_some_iff_getElem]
  have hlen : (l.take (m + 1)).length = m + 1 := by
    rw [List.length_take]
    omega
  refine ⟨by omega, ?_, ?_⟩
  · simpa using hp
  · intro j hj
    simpa using hmin j hj

lemma nodeAfter_split (node : List Nat) (m : Nat) (R A : List Nat)
    (hnd : node.Nodup) (hR : ∀ x ∈ R, x ∈ node.drop (m + 1)) :
    nodeAfter node R A =
      node.take (m + 1) ++
        (R.foldl (fun n x => n.erase x) (node.drop (m + 1)) ++ A) := by
  have hsplit : node = node.take (m + 1) ++ node.drop (m + 1) :=
    (List.take_append_drop (m + 1) node).symm
  have hdisj : ∀ x ∈ node.drop (m + 1), x ∉ node.take (m + 1) := by
    intro x hx hP
    have hnd2 := hnd
    rw [hsplit] at hnd2
    exact (List.nodup_append.mp hnd2).2.2 hP hx
  unfold nodeAfter
  conv_lhs => rw [hsplit]
  rw [foldl_erase_append _ _ _ fun x hx => hdisj x (hR x hx), List.append_assoc]

/-- Counterexample to C6 as stated: the node's names are `useLifetime` and
`X_1`, so `X` itself is not in use; inserting two knobs both named `X`
yields names `X` and `X_2` — distinct, but not `X_1` as the claim
requires, because `X_1` was already taken. -/
theorem insert_batch_rename_counterexample :
    (insert [2, 3] ⟨fun i => if i = 0 then "useLifetime" else if i = 1 then "X_1"
        else "X", [0, 1], "Grade"⟩ none false).world.names 2 = "X" ∧
    (insert [2, 3] ⟨fun i => if i = 0 then "useLifetime" else if i = 1 then "X_1"
        else "X", [0, 1], "Grade"⟩ none false).world.names 3 = "X_2" ∧
    ("X_2" : String) ≠ "X_1" ∧
    ("X" : String) ∉ (["useLifetime", "X_1"] : List String) :=
  ⟨by decide, by decide, by decide, by decide⟩

/-- C6 (amended): inserting a batch of two fresh knobs that share the name
`X` onto a node where neither `X` nor any name of the form `X_<digits>` is
in use renames them against the in-use set updated after each knob: the
first keeps `X`, the second becomes `X_1`, the two names are distinct, and
both knobs end up attached as user knobs. -/
theorem insert_batch_rename (w : World) (a b : Nat) (X : String) (m : Nat)
    (hnodnd : w.node.Nodup) (_ha : a ∉ w.node) (hb : b ∉ w.node) (hab : a ≠ b)
    (hna : w.names a = X) (hnb : w.names b = X)
    (hX : X ∉ w.node.map w.names)
    (hXd : ∀ nm ∈ w.node.map w.names, matchSuffixNum X.data nm.data = none)
    (hm : w.node.findIdx? (fun k => w.names k == lastknob_class_map w.cls) = some m) :
    (insert [a, b] w none false).world.names a = X ∧
    (insert [a, b] w none false).world.names b = ⟨X.data ++ '_' :: natRepr 1⟩ ∧
    X ≠ (⟨X.data ++ '_' :: natRepr 1⟩ : String) ∧
    ∃ post, all_user_knobs (insert [a, b] w none false).world = .ok post ∧
      a ∈ post ∧ b ∈ post := by
  have hpre : all_user_knobs w = .ok (w.node.drop (m + 1)) := by
    unfold all_user_knobs
    rw [hm]
  have hnd : ([a, b] : List Nat).Nodup := by simp [hab]
  have hip : _calculate_insertion_point (w.node.drop (m + 1)) none false =
      .ok (w.node.drop (m + 1)).length := rfl
  have heq := insert_eq_apply hnd
    (show resolveKnobPoint w none = .ok none from rfl) hpre hip
  have hXn : X ∉ nodeNames w := fun hmem => hX (List.mem_dedup.mp hmem)
  -- the collision loop: a keeps X, b is renamed to X_1
  have hloop : mangledNames w [a, b] =
      fun j => if j = b then _name_mangler X (X :: nodeNames w) else w.names j := by
    unfold mangledNames
    simp only [mangleLoop, hna, hnb, if_neg hXn]
    rw [List.insert_of_not_mem hXn,
      if_pos (List.mem_cons_self X (nodeNames w))]
  have hnn : _name_mangler X (X :: nodeNames w) = ⟨X.data ++ '_' :: natRepr 1⟩ := by
    apply mangler_of_no_match
    intro x hx
    rcases List.mem_cons.mp hx with rfl | hx
    · exact matchSuffixNum_self _
    · exact hXd x (List.mem_dedup.mp hx)
  have hnames_a : mangledNames w [a, b] a = X := by
    rw [hloop]
    simp only [if_neg hab]
    exact hna
  have hnames_b : mangledNames w [a, b] b = ⟨X.data ++ '_' :: natRepr 1⟩ := by
    rw [hloop]
    simp only [if_pos rfl]
    exact hnn
  have hXne : X ≠ (⟨X.data ++ '_' :: natRepr 1⟩ : String) := by
    intro he
    have hl := congrArg (fun s : String => s.data.length) he
    simp only [List.length_append, List.length_cons] at hl
    omega
  -- geometry of the reconciliation
  have hmlt : m < w.node.length := (List.findIdx?_eq_some_iff_getElem.mp hm).1
  have hPlen : (w.node.take (m + 1)).length = m + 1 := by
    rw [List.length_take]
    omega
  have hprop : proposedOf (w.node.drop (m + 1)) [a, b] (w.node.drop (m + 1)).length =
      w.node.drop (m + 1) ++ [a, b] := by
    unfold proposedOf
    rw [List.take_length, List.drop_length, List.append_nil]
  have hk0 : diffIndex (w.node.drop (m + 1))
      (proposedOf (w.node.drop (m + 1)) [a, b] (w.node.drop (m + 1)).length) =
      (w.node.drop (m + 1)).length - 1 := by
    rw [hprop, diffIndex_self_append]
  have happ : appendsOf (w.node.drop (m + 1))
      (proposedOf (w.node.drop (m + 1)) [a, b] (w.node.drop (m + 1)).length) =
      (w.node.drop (m + 1)).drop ((w.node.drop (m + 1)).length - 1) ++ [a, b] := by
    unfold appendsOf
    rw [hk0, hprop, List.drop_append_of_le_length (by omega)]
  have hrm_sub : ∀ x ∈ removesOf (w.node.drop (m + 1))
      (proposedOf (w.node.drop (m + 1)) [a, b] (w.node.drop (m + 1)).length),
      x ∈ w.node.drop (m + 1) := fun x hx => List.mem_of_mem_drop hx
  have hworld : (insert [a, b] w none false).world =
      ⟨mangledNames w [a, b],
        w.node.take (m + 1) ++
          ((removesOf (w.node.drop (m + 1))
              (proposedOf (w.node.drop (m + 1)) [a, b] (w.node.drop (m + 1)).length)).foldl
            (fun n x => n.erase x) (w.node.drop (m + 1)) ++
            appendsOf (w.node.drop (m + 1))
              (proposedOf (w.node.drop (m + 1)) [a, b] (w.node.drop (m + 1)).length)),
        w.cls⟩ := by
    rw [heq, insertApply_world, nodeAfter_split _ m _ _ hnodnd hrm_sub]
  refine ⟨by rw [hworld]; exact hnames_a, by rw [hworld]; exact hnames_b, hXne, ?_⟩
  -- the boundary knob is still the first marker-named knob, at index m
  have hcong : ∀ x ∈ w.node.take (m + 1),
      (mangledNames w [a, b] x == lastknob_class_map w.cls) =
        (w.names x == lastknob_class_map w.cls) := by
    intro x hx
    have hxb : x ≠ b := fun he => hb (he ▸ List.mem_of_mem_take hx)
    rw [hloop]
    simp only [if_neg hxb]
  have hfi : (w.node.take (m + 1) ++
      ((removesOf (w.node.drop (m + 1))
          (proposedOf (w.node.drop (m + 1)) [a, b] (w.node.drop (m + 1)).length)).foldl
        (fun n x => n.erase x) (w.node.drop (m + 1)) ++
        appendsOf (w.node.drop (m + 1))
          (proposedOf (w.node.drop (m + 1)) [a, b] (w.node.drop (m + 1)).length))).findIdx?
      (fun k => mangledNames w [a, b] k == lastknob_class_map w.cls) = some m := by
    rw [List.findIdx?_append,
      findIdx?_congr_mem _ _ _ hcong, findIdx?_take_succ hm]
    rfl
  refine ⟨(removesOf (w.node.drop (m + 1))
      (proposedOf (w.node.drop (m + 1)) [a, b] (w.node.drop (m + 1)).length)).foldl
      (fun n x => n.erase x) (w.node.drop (m + 1)) ++
      appendsOf (w.node.drop (m + 1))
        (proposedOf (w.node.drop (m + 1)) [a, b] (w.node.drop (m + 1)).length), ?_, ?_, ?_⟩
  · rw [hworld]
    unfold all_user_knobs
    dsimp only
    rw [hfi]
    dsimp only
    rw [List.drop_left' hPlen]
  · rw [happ]
    refine List.mem_append_right _ (List.mem_append_right _ ?_)
    exact List.mem_cons_self a [b]
  · rw [happ]
    refine List.mem_append_right _ (List.mem_append_right _ ?_)
    exact List.mem_cons_of_mem a (List.mem_singleton_self b)

/-- Witness for `insert_batch_rename` at a concrete input. -/
theorem insert_batch_rename_witness :
    (insert [1, 2] ⟨fun i => if i = 0 then "useLifetime" else "X", [0], "Grade"⟩
        none false).world.names 1 = "X" ∧
    (insert [1, 2] ⟨fun i => if i = 0 then "useLifetime" else "X", [0], "Grade"⟩
        none false).world.names 2 = ⟨("X" : String).data ++ '_' :: natRepr 1⟩ ∧
    ("X" : String) ≠ (⟨("X" : String).data ++ '_' :: natRepr 1⟩ : String) ∧
    ∃ post, all_user_knobs
        (insert [1, 2] ⟨fun i => if i = 0 then "useLifetime" else "X", [0], "Grade"⟩
          none false).world = .ok post ∧ 1 ∈ post ∧ 2 ∈ post :=
  insert_batch_rename ⟨fun i => if i = 0 then "useLifetime" else "X", [0], "Grade"⟩
    1 2 "X" 0 (by decide) (by decide) (by decide) (by decide) (by rfl) (by rfl)
    (by decide) (by decide) (by rfl)

end KnobWrangler
